import Mathlib

/-!
Verification of the complex-plane diagnostic matching engine of the
diagnovera repository.

The embedded code is the diagnostic core of `gcloud-backend-main.py`
(`ComplexPlaneMapper`, `DiagnosticEngine` with its Bayesian, Kuramoto and
Markov measures, and the ranking in `analyze_patient_encounter`) together
with `AngleAllocator.allocate_angle` of `cloud-functions.py`.

Python floats are modelled as exact rationals; the trigonometric part of
the Kuramoto measure is modelled over the reals.  Python dictionaries keyed
by the six clinical domains are modelled as functions `Domain → Option _`
(a key that is absent maps to `none`); iteration over a dictionary is
iteration over the fixed list `Domain.all`, which is harmless because every
aggregation in the engine is a commutative sum.
-/

/-- The six clinical domains of the `DOMAINS` configuration table. -/
inductive Domain where
  | subjective
  | vitals
  | examination
  | laboratory
  | imaging
  | procedures
  deriving DecidableEq, Repr

/-- Iteration order over the domain dictionary. -/
def Domain.all : List Domain :=
  [.subjective, .vitals, .examination, .laboratory, .imaging, .procedures]

/-- A patient-side complex-plane record as produced by
`ComplexPlaneMapper.map_to_complex_plane`: dictionary with keys
`variable` (here `name`), `angle` (degrees) and `magnitude`. -/
structure PVar where
  name : String
  angle : ℚ
  magnitude : ℚ
  deriving DecidableEq, Repr

/-- A reference-side complex-plane record, loaded from the reference
library.  The engine reads `magnitude` with `.get('magnitude', 0)` and
`weight` with `.get('weight', 1.0)`, so both fields are optional. -/
structure RVar where
  name : String
  angle : ℚ
  magnitude : Option ℚ
  weight : Option ℚ
  deriving DecidableEq, Repr

/-- The read `ref_var.get('magnitude', 0)`. -/
def refMag (r : RVar) : ℚ := r.magnitude.getD 0

/-- The read `ref_var.get('weight', 1.0)`. -/
def refWeight (r : RVar) : ℚ := r.weight.getD 1

/-- The `patient_complex_data` dictionary, keyed by domain. -/
def PatientData : Type := Domain → Option (List PVar)

/-- The `reference['complex_plane_data']` dictionary of reference
variables (a reference profile without the key behaves as the constant
`none` function). -/
def RefData : Type := Domain → Option (List RVar)

/-- Per-pair similarity of `_calculate_bayesian_probability`:
`1.0 - (angle_diff / 360.0 + magnitude_diff) / 2.0`. -/
def similarity (p : PVar) (r : RVar) : ℚ :=
  1 - (|p.angle - r.angle| / 360 + |p.magnitude - refMag r|) / 2

/-- Inner loop of `_calculate_bayesian_probability`: on a name match add
`similarity * weight` to `total_score` and `weight` to `total_weight`. -/
def bayesStep (p : PVar) (acc : ℚ × ℚ) (r : RVar) : ℚ × ℚ :=
  if p.name = r.name then
    (acc.1 + similarity p r * refWeight r, acc.2 + refWeight r)
  else acc

/-- The two nested `for` loops over one shared domain. -/
def bayesDomainAcc (acc : ℚ × ℚ) (pv : List PVar) (rv : List RVar) : ℚ × ℚ :=
  pv.foldl (fun a p => rv.foldl (bayesStep p) a) acc

/-- The accumulated `(total_score, total_weight)` over all domains present
in the patient dictionary and in `reference['complex_plane_data']`. -/
def bayesAcc (pat : PatientData) (ref : RefData) : ℚ × ℚ :=
  Domain.all.foldl (fun a d =>
    match pat d, ref d with
    | some pv, some rv => bayesDomainAcc a pv rv
    | _, _ => a) (0, 0)

/-- Embeds `DiagnosticEngine._calculate_bayesian_probability`:
`total_score / total_weight if total_weight > 0 else 0.0`. -/
def bayesianProbability (pat : PatientData) (ref : RefData) : ℚ :=
  let a := bayesAcc pat ref
  if a.2 > 0 then a.1 / a.2 else 0

/-- All pairs of one shared domain that agree on `variable` name. -/
def domainMatchedPairs (pv : List PVar) (rv : List RVar) : List (PVar × RVar) :=
  pv.flatMap fun p =>
    rv.filterMap fun r => if p.name = r.name then some (p, r) else none

/-- All name-matched pairs across the domains shared by the patient data
and the reference profile. -/
def matchedPairs (pat : PatientData) (ref : RefData) : List (PVar × RVar) :=
  Domain.all.flatMap fun d =>
    match pat d, ref d with
    | some pv, some rv => domainMatchedPairs pv rv
    | _, _ => []

/-- The Bayesian measure in the words of the specification: the weighted
mean, over all name-matched pairs in all shared domains, of the local
similarity, each pair weighted by the reference variable's weight
(division by a zero total weight yields `0` in this formalization). -/
def bayesianWeightedMean (pat : PatientData) (ref : RefData) : ℚ :=
  let ps := matchedPairs pat ref
  (ps.map fun q => similarity q.1 q.2 * refWeight q.2).sum /
    (ps.map fun q => refWeight q.2).sum

section SanityChecks

def pvA : PVar := ⟨"heart_rate", 60, 1⟩
def rvA : RVar := ⟨"heart_rate", 60, some (1/2), none⟩

example : similarity pvA rvA = 3/4 := by
  simp [similarity, pvA, rvA, refMag]
  norm_num [abs_of_nonneg]

def patOne : PatientData := fun d =>
  match d with
  | .vitals => some [pvA]
  | _ => none

def refOne : RefData := fun d =>
  match d with
  | .vitals => some [rvA]
  | _ => none

example : bayesAcc patOne refOne = (3/4, 1) := by
  simp [bayesAcc, Domain.all, patOne, refOne, bayesDomainAcc, bayesStep,
    similarity, refWeight, refMag, pvA, rvA]
  norm_num [abs_of_nonneg]

example : bayesianProbability patOne refOne = 3/4 := by
  simp [bayesianProbability, bayesAcc, Domain.all, patOne, refOne,
    bayesDomainAcc, bayesStep, similarity, refWeight, refMag, pvA, rvA]
  norm_num [abs_of_nonneg]

example : matchedPairs patOne refOne = [(pvA, rvA)] := by
  simp [matchedPairs, Domain.all, patOne, refOne, domainMatchedPairs, pvA, rvA]

example : bayesianWeightedMean patOne refOne = 3/4 := by
  simp [bayesianWeightedMean, matchedPairs, Domain.all, patOne, refOne,
    domainMatchedPairs, similarity, refWeight, refMag, pvA, rvA]
  norm_num [abs_of_nonneg]

end SanityChecks

/-- Total weighted similarity of a list of matched pairs. -/
def pairsScore (ps : List (PVar × RVar)) : ℚ :=
  (ps.map fun q => similarity q.1 q.2 * refWeight q.2).sum

/-- Total weight of a list of matched pairs. -/
def pairsWeight (ps : List (PVar × RVar)) : ℚ :=
  (ps.map fun q => refWeight q.2).sum

lemma foldl_bayesStep (p : PVar) (rv : List RVar) (a : ℚ × ℚ) :
    rv.foldl (bayesStep p) a =
      (a.1 + pairsScore (rv.filterMap fun r =>
          if p.name = r.name then some (p, r) else none),
       a.2 + pairsWeight (rv.filterMap fun r =>
          if p.name = r.name then some (p, r) else none)) := by
  induction rv generalizing a with
  | nil => simp [pairsScore, pairsWeight]
  | cons r rv ih =>
    by_cases h : p.name = r.name
    · simp only [List.foldl_cons, ih, bayesStep, h, if_pos, List.filterMap_cons,
        pairsScore, pairsWeight, List.map_cons, List.sum_cons]
      exact Prod.ext (by ring) (by ring)
    · simp only [List.foldl_cons, ih, bayesStep, h, if_neg, List.filterMap_cons,
        ite_false]

lemma bayesDomainAcc_eq (a : ℚ × ℚ) (pv : List PVar) (rv : List RVar) :
    bayesDomainAcc a pv rv =
      (a.1 + pairsScore (domainMatchedPairs pv rv),
       a.2 + pairsWeight (domainMatchedPairs pv rv)) := by
  induction pv generalizing a with
  | nil => simp [bayesDomainAcc, domainMatchedPairs, pairsScore, pairsWeight]
  | cons p pv ih =>
    simp only [bayesDomainAcc, List.foldl_cons] at ih ⊢
    rw [foldl_bayesStep, ih]
    simp only [domainMatchedPairs, List.flatMap_cons, pairsScore, pairsWeight,
      List.map_append, List.sum_append]
    exact Prod.ext (by ring) (by ring)

lemma bayesAcc_eq (pat : PatientData) (ref : RefData) :
    bayesAcc pat ref =
      (pairsScore (matchedPairs pat ref), pairsWeight (matchedPairs pat ref)) := by
  have key : ∀ (ds : List Domain) (a : ℚ × ℚ),
      ds.foldl (fun a d =>
        match pat d, ref d with
        | some pv, some rv => bayesDomainAcc a pv rv
        | _, _ => a) a =
      (a.1 + pairsScore (ds.flatMap fun d =>
        match pat d, ref d with
        | some pv, some rv => domainMatchedPairs pv rv
        | _, _ => []),
       a.2 + pairsWeight (ds.flatMap fun d =>
        match pat d, ref d with
        | some pv, some rv => domainMatchedPairs pv rv
        | _, _ => [])) := by
    intro ds
    induction ds with
    | nil => intro a; simp [pairsScore, pairsWeight]
    | cons d ds ih =>
      intro a
      rw [List.foldl_cons, List.flatMap_cons]
      rcases hp : pat d with _ | pv <;> rcases hr : ref d with _ | rv <;>
        simp only [hp, hr]
      · simpa using ih a
      · simpa using ih a
      · simpa using ih a
      · rw [bayesDomainAcc_eq, ih]
        simp only [pairsScore, pairsWeight, List.map_append, List.sum_append]
        exact Prod.ext (by ring) (by ring)
  unfold bayesAcc matchedPairs
  rw [key]
  simp

/-- Conversion `np.radians`: degrees to radians. -/
noncomputable def deg2rad (q : ℚ) : ℝ := (q : ℝ) * Real.pi / 180

/-- One domain's term in `_calculate_kuramoto_synchronization`: `np.mean`
of `cos(patient_phases[i] - ref_phases[i])` for `i` below the shorter of
the two lengths (positional pairing, not name matching). -/
noncomputable def domainPhaseDiff (pv : List PVar) (rv : List RVar) : ℝ :=
  let cs := List.zipWith
    (fun (p : PVar) (r : RVar) => Real.cos (deg2rad p.angle - deg2rad r.angle)) pv rv
  cs.sum / cs.length

/-- The list `phase_differences`: one term per domain present in both
dictionaries whose two phase lists are nonempty. -/
noncomputable def phaseDiffList (pat : PatientData) (ref : RefData) : List ℝ :=
  Domain.all.filterMap fun d =>
    match pat d, ref d with
    | some pv, some rv =>
        if pv ≠ [] ∧ rv ≠ [] then some (domainPhaseDiff pv rv) else none
    | _, _ => none

/-- Embeds `DiagnosticEngine._calculate_kuramoto_synchronization`:
`np.mean(phase_differences) if phase_differences else 0.0`. -/
noncomputable def kuramotoSynchronization (pat : PatientData) (ref : RefData) : ℝ :=
  if phaseDiffList pat ref = [] then 0
  else (phaseDiffList pat ref).sum / (phaseDiffList pat ref).length

/-- The Kuramoto measure in the words of the claim: the magnitude of the
mean of `exp(i·Δphase)` over exactly the name-matched pairs. -/
noncomputable def kuramotoClaim (pat : PatientData) (ref : RefData) : ℝ :=
  let ps := matchedPairs pat ref
  Complex.abs ((ps.map fun q =>
    Complex.exp (Complex.ofReal (deg2rad q.1.angle - deg2rad q.2.angle)
      * Complex.I)).sum / (ps.length : ℂ))

/-- The Kuramoto quantity the code actually computes, phrased with
phasors: per shared domain with nonempty lists, the real part of the mean
of `exp(i·Δphase)` over positionally paired variables (up to the shorter
length), and then the plain mean of these per-domain terms. -/
noncomputable def kuramotoAmended (pat : PatientData) (ref : RefData) : ℝ :=
  let ds := Domain.all.filterMap fun d =>
    match pat d, ref d with
    | some pv, some rv =>
        if pv ≠ [] ∧ rv ≠ [] then
          some (((List.zipWith (fun (p : PVar) (r : RVar) =>
              Complex.exp (Complex.ofReal (deg2rad p.angle - deg2rad r.angle)
                * Complex.I)) pv rv).sum /
            ((min pv.length rv.length : ℕ) : ℝ)).re)
        else none
    | _, _ => none
  if ds = [] then 0 else ds.sum / ds.length

lemma list_re_sum (l : List ℂ) : l.sum.re = (l.map Complex.re).sum := by
  induction l with
  | nil => simp
  | cons z l ih => simp [ih]

lemma zipWith_phasor_re (pv : List PVar) (rv : List RVar) :
    ((List.zipWith (fun (p : PVar) (r : RVar) =>
        Complex.exp (Complex.ofReal (deg2rad p.angle - deg2rad r.angle)
          * Complex.I)) pv rv).sum /
      ((min pv.length rv.length : ℕ) : ℝ)).re = domainPhaseDiff pv rv := by
  unfold domainPhaseDiff
  rw [Complex.div_ofReal_re]
  congr 1
  · rw [list_re_sum, List.map_zipWith]
    have hfun : (fun (p : PVar) (r : RVar) =>
        Complex.re (Complex.exp (Complex.ofReal (deg2rad p.angle - deg2rad r.angle)
          * Complex.I))) =
        fun (p : PVar) (r : RVar) => Real.cos (deg2rad p.angle - deg2rad r.angle) := by
      funext p r
      exact Complex.exp_ofReal_mul_I_re _
    rw [hfun]
  · simp [List.length_zipWith]

lemma filterMap_ext {α β : Type _} (f g : α → Option β) (l : List α)
    (h : ∀ a ∈ l, f a = g a) : l.filterMap f = l.filterMap g := by
  induction l with
  | nil => rfl
  | cons a l ih =>
    rw [List.filterMap_cons, List.filterMap_cons, h a (by simp),
      ih fun b hb => h b (by simp [hb])]

/-- C2 (amended).  The Kuramoto measure computed by the code equals, for
every input, the mean over the shared domains with nonempty variable lists
of the real part of the mean of `exp(i·Δphase)` over positionally paired
variables up to the shorter list (not the magnitude of a mean over
name-matched pairs). -/
theorem kuramoto_is_positional_cosine_mean (pat : PatientData) (ref : RefData) :
    kuramotoSynchronization pat ref = kuramotoAmended pat ref := by
  unfold kuramotoSynchronization kuramotoAmended
  have hds : phaseDiffList pat ref = Domain.all.filterMap (fun d =>
      match pat d, ref d with
      | some pv, some rv =>
          if pv ≠ [] ∧ rv ≠ [] then
            some (((List.zipWith (fun (p : PVar) (r : RVar) =>
                Complex.exp (Complex.ofReal (deg2rad p.angle - deg2rad r.angle)
                  * Complex.I)) pv rv).sum /
              ((min pv.length rv.length : ℕ) : ℝ)).re)
          else none
      | _, _ => none) := by
    unfold phaseDiffList
    apply filterMap_ext
    intro d _
    rcases hp : pat d with _ | pv <;> rcases hr : ref d with _ | rv <;>
      simp only
    by_cases hne : pv ≠ [] ∧ rv ≠ []
    · rw [if_pos hne, if_pos hne, zipWith_phasor_re]
    · rw [if_neg hne, if_neg hne]
  rw [hds]

def pvA2 : PVar := ⟨"a", 0, 1⟩
def pvB2 : PVar := ⟨"b", 90, 1⟩
def rvA2 : RVar := ⟨"a", 0, some 1, none⟩
def rvB2 : RVar := ⟨"b", 90, some 1, none⟩

def patC2 : PatientData := fun d =>
  match d with
  | .vitals => some [pvA2, pvB2]
  | _ => none

def refC2 : RefData := fun d =>
  match d with
  | .vitals => some [rvB2, rvA2]
  | _ => none

lemma deg2rad_zero : deg2rad 0 = 0 := by
  unfold deg2rad
  norm_num

lemma deg2rad_ninety : deg2rad 90 = Real.pi / 2 := by
  unfold deg2rad
  push_cast
  ring

/-- C2 (counterexample).  A patient and a reference that share the vitals
domain with variables `a` (at 0°) and `b` (at 90°) listed in opposite
orders: every name-matched pair has `Δphase = 0`, so the claimed measure
`|mean exp(i·Δphase)|` is `1`, but the code pairs variables positionally
and returns `0`. -/
theorem kuramoto_claim_counterexample :
    kuramotoSynchronization patC2 refC2 = 0 ∧ kuramotoClaim patC2 refC2 = 1 ∧
      kuramotoSynchronization patC2 refC2 ≠ kuramotoClaim patC2 refC2 := by
  have hsync : kuramotoSynchronization patC2 refC2 = 0 := by
    have hdp : domainPhaseDiff [pvA2, pvB2] [rvB2, rvA2] = 0 := by
      unfold domainPhaseDiff
      simp only [List.zipWith_cons_cons, List.zipWith_nil_right, pvA2, pvB2,
        rvA2, rvB2, List.zipWith]
      rw [deg2rad_zero, deg2rad_ninety]
      rw [zero_sub, Real.cos_neg, sub_zero, Real.cos_pi_div_two]
      norm_num
    unfold kuramotoSynchronization
    have hlist : phaseDiffList patC2 refC2 =
        [domainPhaseDiff [pvA2, pvB2] [rvB2, rvA2]] := by
      simp [phaseDiffList, Domain.all, patC2, refC2]
    rw [hlist, hdp]
    simp
  refine ⟨hsync, ?_, ?_⟩
  · have hmp : matchedPairs patC2 refC2 = [(pvA2, rvA2), (pvB2, rvB2)] := by
      simp [matchedPairs, Domain.all, patC2, refC2, domainMatchedPairs,
        pvA2, pvB2, rvA2, rvB2]
    unfold kuramotoClaim
    rw [hmp]
    have ha : (pvA2.angle : ℚ) = (rvA2.angle : ℚ) := by simp [pvA2, rvA2]
    simp only [List.map_cons, List.map_nil, pvA2, pvB2, rvA2, rvB2]
    rw [sub_self, Complex.ofReal_zero, zero_mul, Complex.exp_zero]
    rw [sub_self, Complex.ofReal_zero, zero_mul, Complex.exp_zero]
    simp
  · rw [hsync]
    intro h
    have hmp : matchedPairs patC2 refC2 = [(pvA2, rvA2), (pvB2, rvB2)] := by
      simp [matchedPairs, Domain.all, patC2, refC2, domainMatchedPairs,
        pvA2, pvB2, rvA2, rvB2]
    rw [show kuramotoClaim patC2 refC2 = 1 from ?_] at h
    · exact zero_ne_one h
    · unfold kuramotoClaim
      rw [hmp]
      simp only [List.map_cons, List.map_nil, pvA2, pvB2, rvA2, rvB2]
      rw [sub_self, Complex.ofReal_zero, zero_mul, Complex.exp_zero]
      rw [sub_self, Complex.ofReal_zero, zero_mul, Complex.exp_zero]
      simp

/-- Inner loop of `_domain_match_score` for one patient variable: look at
the first reference variable with the same name (the loop `break`s on the
first name match) and count `1` when both magnitudes exceed `0.5`. -/
def matchFlag (p : PVar) (rv : List RVar) : ℕ :=
  match rv.find? fun r => p.name == r.name with
  | some r => if 1/2 < p.magnitude ∧ 1/2 < refMag r then 1 else 0
  | none => 0

/-- The `matches` counter of `_domain_match_score`. -/
def matchCount (pv : List PVar) (rv : List RVar) : ℕ :=
  (pv.map fun p => matchFlag p rv).sum

/-- Embeds `DiagnosticEngine._domain_match_score`. -/
def domainMatchScore (pv : List PVar) (rv : List RVar) : ℚ :=
  if pv = [] ∨ rv = [] then 0
  else (matchCount pv rv : ℚ) / pv.length

/-- The `domain_sequence` of `_calculate_markov_probability` — note it has
five entries and stops at `imaging`. -/
def domainSequence : List Domain :=
  [.subjective, .vitals, .examination, .laboratory, .imaging]

/-- One iteration of the transition loop: the product of the two domain
match scores when all four dictionary keys are present, else `0`. -/
def transitionTerm (pat : PatientData) (ref : RefData) (c n : Domain) : ℚ :=
  match pat c, pat n, ref c, ref n with
  | some pc, some pn, some rc, some rn =>
      domainMatchScore pc rc * domainMatchScore pn rn
  | _, _, _, _ => 0

/-- Embeds `DiagnosticEngine._calculate_markov_probability`:
`transition_score / (len(domain_sequence) - 1)`. -/
def markovProbability (pat : PatientData) (ref : RefData) : ℚ :=
  ((domainSequence.zip domainSequence.tail).map fun q =>
    transitionTerm pat ref q.1 q.2).sum / (domainSequence.length - 1 : ℕ)

/-- The domain match score in the words of the claim: the number of
name-matched pairs whose magnitudes on both sides exceed `0.5`, divided by
the number of patient variables (`0` when there are none, since division
by zero yields `0`). -/
def claimDomainMatchScore (pv : List PVar) (rv : List RVar) : ℚ :=
  ((domainMatchedPairs pv rv).map fun q =>
    if 1/2 < q.1.magnitude ∧ 1/2 < refMag q.2 then (1 : ℚ) else 0).sum / pv.length

/-- The Markov measure in the words of the claim: the six-domain chain,
with the mean taken over only the adjacent pairs present on both sides. -/
def markovClaim (pat : PatientData) (ref : RefData) : ℚ :=
  let qs := (Domain.all.zip Domain.all.tail).filter fun q =>
    (pat q.1).isSome && (pat q.2).isSome && (ref q.1).isSome && (ref q.2).isSome
  (qs.map fun q =>
    claimDomainMatchScore ((pat q.1).getD []) ((ref q.1).getD []) *
      claimDomainMatchScore ((pat q.2).getD []) ((ref q.2).getD [])).sum / qs.length

def patC3 : PatientData := fun d =>
  match d with
  | .subjective => some [⟨"s", 0, 1⟩]
  | .vitals => some [⟨"v", 0, 1⟩]
  | _ => none

def refC3 : RefData := fun d =>
  match d with
  | .subjective => some [⟨"s", 0, some 1, none⟩]
  | .vitals => some [⟨"v", 0, some 1, none⟩]
  | _ => none

/-- C3 (counterexample).  A patient and a reference populating exactly the
subjective and vitals domains, with one perfectly matching variable each:
the only populated adjacent pair has product `1`, so the claimed average
over the present pairs is `1`, but the code divides the transition sum by
the fixed denominator `4` and returns `1/4`. -/
theorem markov_claim_counterexample :
    markovProbability patC3 refC3 = 1/4 ∧ markovClaim patC3 refC3 = 1 ∧
      markovProbability patC3 refC3 ≠ markovClaim patC3 refC3 := by
  have hcode : markovProbability patC3 refC3 = 1/4 := by
    simp only [markovProbability, domainSequence, List.zip, List.zipWith,
      List.map_cons, List.map_nil, List.sum_cons, List.sum_nil, List.length_cons,
      List.length_nil, transitionTerm, patC3, refC3, domainMatchScore, matchCount,
      matchFlag, refMag, List.find?]
    norm_num
  have hclaim : markovClaim patC3 refC3 = 1 := by
    simp only [markovClaim, Domain.all, List.zip, List.zipWith, List.tail,
      List.filter, patC3, refC3, Option.isSome, claimDomainMatchScore,
      domainMatchedPairs, List.flatMap_cons, List.flatMap_nil, List.filterMap,
      refMag, Option.getD, List.map_cons, List.map_nil, List.sum_cons,
      List.sum_nil, List.length_cons, List.length_nil]
    norm_num [List.filterMap_cons, List.filterMap_nil]
  refine ⟨hcode, hclaim, ?_⟩
  rw [hcode, hclaim]
  norm_num

lemma filterMap_matched_of_nodup (p : PVar) (rv : List RVar)
    (h : (rv.map RVar.name).Nodup) :
    (rv.filterMap fun r => if p.name = r.name then some (p, r) else none) =
      match rv.find? fun r => p.name == r.name with
      | some r => [(p, r)]
      | none => [] := by
  induction rv with
  | nil => rfl
  | cons r rv ih =>
    have hh : r.name ∉ rv.map RVar.name ∧ (rv.map RVar.name).Nodup := by
      rw [List.map_cons, List.nodup_cons] at h
      exact h
    by_cases hn : p.name = r.name
    · rw [List.filterMap_cons, if_pos hn, List.find?_cons_of_pos _ (by simp [hn])]
      have hnil : (rv.filterMap fun x =>
          if p.name = x.name then some (p, x) else none) = [] := by
        rw [List.filterMap_eq_nil_iff]
        intro a ha
        have hpa : p.name ≠ a.name := by
          rw [hn]
          intro hEq
          exact hh.1 (by rw [hEq]; exact List.mem_map_of_mem RVar.name ha)
        simp [hpa]
      simp [hnil]
    · rw [List.filterMap_cons, if_neg hn, List.find?_cons_of_neg _ (by simp [hn])]
      exact ih hh.2

lemma matchCount_eq_claim (pv : List PVar) (rv : List RVar)
    (h : (rv.map RVar.name).Nodup) :
    ((domainMatchedPairs pv rv).map fun q =>
      if 1/2 < q.1.magnitude ∧ 1/2 < refMag q.2 then (1 : ℚ) else 0).sum =
      (matchCount pv rv : ℚ) := by
  unfold domainMatchedPairs
  induction pv with
  | nil => simp [matchCount]
  | cons p pv ih =>
    rw [List.flatMap_cons, List.map_append, List.sum_append, ih]
    have hsplit : matchCount (p :: pv) rv = matchFlag p rv + matchCount pv rv := by
      unfold matchCount
      rw [List.map_cons, List.sum_cons]
    rw [hsplit, Nat.cast_add]
    congr 1
    rw [filterMap_matched_of_nodup p rv h]
    unfold matchFlag
    rcases hf : rv.find? fun r => p.name == r.name with _ | r <;> rw [hf]
    · simp
    · simp only [List.map_cons, List.map_nil, List.sum_cons, List.sum_nil]
      by_cases hm : 1/2 < p.magnitude ∧ 1/2 < refMag r
      · rw [if_pos hm, if_pos hm]
        norm_num
      · rw [if_neg hm, if_neg hm]
        norm_num

lemma domainMatchScore_eq_claim (pv : List PVar) (rv : List RVar)
    (h : (rv.map RVar.name).Nodup) :
    domainMatchScore pv rv = claimDomainMatchScore pv rv := by
  unfold domainMatchScore claimDomainMatchScore
  by_cases hpv : pv = []
  · subst hpv
    simp [domainMatchedPairs]
  · by_cases hrv : rv = []
    · subst hrv
      rw [if_pos (Or.inr rfl)]
      have hfm : (pv.flatMap fun _ : PVar => ([] : List (PVar × RVar))) = [] :=
        List.flatMap_eq_nil_iff.mpr fun _ _ => rfl
      simp [domainMatchedPairs, hfm]
    · rw [if_neg (by simp [hpv, hrv])]
      rw [matchCount_eq_claim pv rv h]

/-- The Markov formula the code actually computes, phrased with the
claim's per-domain match score: the five-domain chain ending at `imaging`,
with the transition sum divided by the fixed denominator `4` regardless of
how many adjacent pairs are present. -/
def markovAmended (pat : PatientData) (ref : RefData) : ℚ :=
  ((domainSequence.zip domainSequence.tail).map fun q =>
    match pat q.1, pat q.2, ref q.1, ref q.2 with
    | some pc, some pn, some rc, some rn =>
        claimDomainMatchScore pc rc * claimDomainMatchScore pn rn
    | _, _, _, _ => 0).sum / 4

/-- The Markov measure, rewritten with the claim-style match score over
the five-domain chain with fixed denominator `4` (shared helper). -/
lemma markovProbability_eq_claim_form (pat : PatientData) (ref : RefData)
    (h : ∀ d rv, ref d = some rv → (rv.map RVar.name).Nodup) :
    markovProbability pat ref = markovAmended pat ref := by
  unfold markovProbability markovAmended
  have hden : ((domainSequence.length - 1 : ℕ) : ℚ) = 4 := by
    simp [domainSequence]
  rw [hden]
  refine congrArg (fun s : ℚ => s / 4) ?_
  refine congrArg List.sum ?_
  apply List.map_congr_left
  intro q _
  unfold transitionTerm
  rcases hpc : pat q.1 with _ | pc <;> rcases hpn : pat q.2 with _ | pn <;>
    rcases hrc : ref q.1 with _ | rc <;> rcases hrn : ref q.2 with _ | rn <;>
    simp only [hpc, hpn, hrc, hrn]
  rw [domainMatchScore_eq_claim pc rc (h _ _ hrc),
    domainMatchScore_eq_claim pn rn (h _ _ hrn)]

/-- C3 (amended).  For reference profiles whose variable names are unique
within each domain, the Markov measure equals the sum, over the four
adjacent pairs of the five-domain chain subjective → vitals → examination
→ laboratory → imaging, of the products of the two domain match scores
(count of name-matched pairs with both magnitudes above `0.5` over the
patient variable count), divided by the fixed denominator `4`. -/
theorem markov_is_five_chain_fixed_denominator (pat : PatientData) (ref : RefData)
    (h : ∀ d rv, ref d = some rv → (rv.map RVar.name).Nodup) :
    markovProbability pat ref = markovAmended pat ref :=
  markovProbability_eq_claim_form pat ref h

/-- Witness for the amended C3 theorem at a concrete input. -/
theorem markov_is_five_chain_fixed_denominator_witness :
    (∀ d rv, refC3 d = some rv → (rv.map RVar.name).Nodup) ∧
      markovProbability patC3 refC3 = markovAmended patC3 refC3 := by
  have h : ∀ d rv, refC3 d = some rv → (rv.map RVar.name).Nodup := by
    intro d rv hd
    cases d <;> simp [refC3] at hd <;> subst hd <;> simp
  exact ⟨h, markov_is_five_chain_fixed_denominator patC3 refC3 h⟩

/-- One entry of the `diagnosis_scores` list built by
`analyze_patient_encounter` (the `description` field is irrelevant to the
claims and omitted). -/
structure ScoreEntry where
  icd : String
  bayesian : ℚ
  kuramoto : ℝ
  markov : ℚ
  combined : ℝ

/-- One reference-library entry: the document id (ICD-10 code) and its
`complex_plane_data`. -/
structure RefProfile where
  icd : String
  data : RefData

/-- The scores dictionary computed for one reference profile, with the
ensemble `combined = bayesian * 0.4 + kuramoto * 0.3 + markov * 0.3`. -/
noncomputable def scoreOf (pat : PatientData) (rp : RefProfile) : ScoreEntry :=
  { icd := rp.icd
    bayesian := bayesianProbability pat rp.data
    kuramoto := kuramotoSynchronization pat rp.data
    markov := markovProbability pat rp.data
    combined := (bayesianProbability pat rp.data : ℝ) * (0.4 : ℝ) +
      kuramotoSynchronization pat rp.data * (0.3 : ℝ) +
      (markovProbability pat rp.data : ℝ) * (0.3 : ℝ) }

/-- The comparison under `diagnosis_scores.sort(key=..., reverse=True)`:
`a` may come before `b` exactly when `b`'s combined score is not larger. -/
def rankLE (a b : ScoreEntry) : Prop := b.combined ≤ a.combined

noncomputable instance : DecidableRel rankLE :=
  fun a b => Real.decidableLE b.combined a.combined

instance : IsTotal ScoreEntry rankLE :=
  ⟨fun a b => le_total b.combined a.combined⟩

instance : IsTrans ScoreEntry rankLE :=
  ⟨fun _ _ _ h1 h2 => le_trans h2 h1⟩

/-- Embeds `DiagnosticEngine.analyze_patient_encounter`, scoring part: score every
library profile in order, sort by combined score descending (Python's sort
is stable, which is exactly insertion sort under `rankLE`), return the top
ten. -/
noncomputable def analyzePatientEncounter
    (pat : PatientData) (lib : List RefProfile) : List ScoreEntry :=
  (List.insertionSort rankLE (lib.map fun rp => scoreOf pat rp)).take 10

def patC4 : PatientData := fun d =>
  match d with
  | .vitals => some [⟨"x", 0, 1⟩]
  | _ => none

def refC4 : RefData := fun d =>
  match d with
  | .vitals => some [⟨"x", 180, some (1/2), none⟩]
  | _ => none

lemma deg2rad_half_turn : deg2rad 180 = Real.pi := by
  unfold deg2rad
  push_cast
  ring

lemma kuramoto_patC4 : kuramotoSynchronization patC4 refC4 = -1 := by
  have hdp : domainPhaseDiff [⟨"x", 0, 1⟩] [⟨"x", 180, some (1/2), none⟩] = -1 := by
    unfold domainPhaseDiff
    simp only [List.zipWith_cons_cons, List.zipWith_nil_right, List.zipWith]
    rw [deg2rad_zero, deg2rad_half_turn, zero_sub, Real.cos_neg, Real.cos_pi]
    norm_num
  unfold kuramotoSynchronization
  have hlist : phaseDiffList patC4 refC4 =
      [domainPhaseDiff [⟨"x", 0, 1⟩] [⟨"x", 180, some (1/2), none⟩]] := by
    simp [phaseDiffList, Domain.all, patC4, refC4]
  rw [hlist, hdp]
  norm_num

/-- C4 (counterexample).  A patient vitals variable at angle 0° against a
reference variable of the same name at angle 180°, both with well-formed
angles and magnitudes: the code's Kuramoto score is `cos π = -1 < 0`, and
the combined score is `0.5·0.4 - 1·0.3 + 0·0.3 = -0.1 < 0`, so neither lies
in `[0, 1]`. -/
theorem score_bounds_counterexample :
    kuramotoSynchronization patC4 refC4 = -1 ∧
      (scoreOf patC4 ⟨"I21.9", refC4⟩).combined < 0 := by
  refine ⟨kuramoto_patC4, ?_⟩
  have hb : bayesianProbability patC4 refC4 = 1/2 := by
    simp [bayesianProbability, bayesAcc, Domain.all, patC4, refC4,
      bayesDomainAcc, bayesStep, similarity, refWeight, refMag]
    norm_num [abs_of_nonneg]
  have hm : markovProbability patC4 refC4 = 0 := by
    simp [markovProbability, domainSequence, List.zip, List.zipWith,
      transitionTerm, patC4, refC4]
  unfold scoreOf
  simp only [hb, hm, kuramoto_patC4]
  norm_num

lemma mem_matchedPairs {pat : PatientData} {ref : RefData} {q : PVar × RVar}
    (hq : q ∈ matchedPairs pat ref) :
    ∃ d pv rv, pat d = some pv ∧ ref d = some rv ∧ q.1 ∈ pv ∧ q.2 ∈ rv := by
  unfold matchedPairs at hq
  rcases List.mem_flatMap.mp hq with ⟨d, -, hmem⟩
  rcases hp : pat d with _ | pv <;> rcases hr : ref d with _ | rv <;>
    rw [hp, hr] at hmem
  · exact absurd hmem (by simp)
  · exact absurd hmem (by simp)
  · exact absurd hmem (by simp)
  · unfold domainMatchedPairs at hmem
    rcases List.mem_flatMap.mp hmem with ⟨p, hpmem, h2⟩
    rcases List.mem_filterMap.mp h2 with ⟨r, hrmem, hsome⟩
    by_cases hn : p.name = r.name
    · rw [if_pos hn] at hsome
      obtain rfl : (p, r) = q := Option.some.inj hsome
      exact ⟨d, pv, rv, hp, hr, hpmem, hrmem⟩
    · rw [if_neg hn] at hsome
      cases hsome

lemma similarity_bounds {p : PVar} {r : RVar}
    (hpa : 0 ≤ p.angle) (hpa' : p.angle ≤ 360)
    (hra : 0 ≤ r.angle) (hra' : r.angle ≤ 360)
    (hpm : 0 ≤ p.magnitude) (hpm' : p.magnitude ≤ 1)
    (hrm : 0 ≤ refMag r) (hrm' : refMag r ≤ 1) :
    0 ≤ similarity p r ∧ similarity p r ≤ 1 := by
  unfold similarity
  have h1 : |p.angle - r.angle| ≤ 360 := abs_le.mpr ⟨by linarith, by linarith⟩
  have h2 : |p.magnitude - refMag r| ≤ 1 := abs_le.mpr ⟨by linarith, by linarith⟩
  have h3 : 0 ≤ |p.angle - r.angle| := abs_nonneg _
  have h4 : 0 ≤ |p.magnitude - refMag r| := abs_nonneg _
  have hx1 : |p.angle - r.angle| / 360 ≤ 1 := by
    rw [div_le_one (by norm_num : (0:ℚ) < 360)]
    exact h1
  have hx0 : 0 ≤ |p.angle - r.angle| / 360 := by positivity
  constructor <;> linarith

lemma pairsScore_bounds (ps : List (PVar × RVar))
    (h : ∀ q ∈ ps, 0 ≤ similarity q.1 q.2 ∧ similarity q.1 q.2 ≤ 1 ∧
      0 ≤ refWeight q.2) :
    0 ≤ pairsScore ps ∧ pairsScore ps ≤ pairsWeight ps := by
  induction ps with
  | nil => simp [pairsScore, pairsWeight]
  | cons q ps ih =>
    have hq := h q (by simp)
    have ih' := ih fun x hx => h x (by simp [hx])
    unfold pairsScore pairsWeight at ih' ⊢
    rw [List.map_cons, List.sum_cons, List.map_cons, List.sum_cons]
    constructor
    · have hterm : 0 ≤ similarity q.1 q.2 * refWeight q.2 :=
        mul_nonneg hq.1 hq.2.2
      linarith [ih'.1]
    · have hterm : similarity q.1 q.2 * refWeight q.2 ≤ refWeight q.2 := by
        nlinarith [hq.1, hq.2.1, hq.2.2]
      linarith [ih'.2]

lemma bayesian_bounds (pat : PatientData) (ref : RefData)
    (hp : ∀ d pv, pat d = some pv → ∀ p ∈ pv,
      0 ≤ p.angle ∧ p.angle ≤ 360 ∧ 0 ≤ p.magnitude ∧ p.magnitude ≤ 1)
    (hr : ∀ d rv, ref d = some rv → ∀ r ∈ rv,
      0 ≤ r.angle ∧ r.angle ≤ 360 ∧ 0 ≤ refMag r ∧ refMag r ≤ 1 ∧
        0 ≤ refWeight r) :
    0 ≤ bayesianProbability pat ref ∧ bayesianProbability pat ref ≤ 1 := by
  have hpt : ∀ q ∈ matchedPairs pat ref,
      0 ≤ similarity q.1 q.2 ∧ similarity q.1 q.2 ≤ 1 ∧ 0 ≤ refWeight q.2 := by
    intro q hq
    obtain ⟨d, pv, rv, hpd, hrd, h1, h2⟩ := mem_matchedPairs hq
    obtain ⟨a1, a2, a3, a4⟩ := hp d pv hpd q.1 h1
    obtain ⟨b1, b2, b3, b4, b5⟩ := hr d rv hrd q.2 h2
    exact ⟨(similarity_bounds a1 a2 b1 b2 a3 a4 b3 b4).1,
      (similarity_bounds a1 a2 b1 b2 a3 a4 b3 b4).2, b5⟩
  obtain ⟨hs0, hsw⟩ := pairsScore_bounds _ hpt
  unfold bayesianProbability
  rw [bayesAcc_eq]
  by_cases hw : pairsWeight (matchedPairs pat ref) > 0
  · rw [if_pos hw]
    exact ⟨div_nonneg hs0 (le_of_lt hw), (div_le_one hw).mpr hsw⟩
  · rw [if_neg hw]
    norm_num

lemma matchFlag_le_one (p : PVar) (rv : List RVar) : matchFlag p rv ≤ 1 := by
  unfold matchFlag
  rcases hf : rv.find? fun r => p.name == r.name with _ | r <;> rw [hf] <;>
    dsimp only
  · norm_num
  · split_ifs <;> norm_num

lemma matchCount_le_length (pv : List PVar) (rv : List RVar) :
    matchCount pv rv ≤ pv.length := by
  unfold matchCount
  induction pv with
  | nil => simp
  | cons p pv ih =>
    rw [List.map_cons, List.sum_cons, List.length_cons]
    have := matchFlag_le_one p rv
    omega

lemma domainMatchScore_bounds (pv : List PVar) (rv : List RVar) :
    0 ≤ domainMatchScore pv rv ∧ domainMatchScore pv rv ≤ 1 := by
  unfold domainMatchScore
  split_ifs with hguard
  · norm_num
  · have hpv : pv ≠ [] := fun hx => hguard (Or.inl hx)
    have hlen : 0 < (pv.length : ℚ) := by
      have := List.length_pos.mpr hpv
      exact_mod_cast this
    constructor
    · positivity
    · rw [div_le_one hlen]
      exact_mod_cast matchCount_le_length pv rv

lemma transitionTerm_bounds (pat : PatientData) (ref : RefData) (c n : Domain) :
    0 ≤ transitionTerm pat ref c n ∧ transitionTerm pat ref c n ≤ 1 := by
  unfold transitionTerm
  rcases pat c with _ | pc <;> rcases pat n with _ | pn <;>
    rcases ref c with _ | rc <;> rcases ref n with _ | rn <;>
    simp only <;> try norm_num
  obtain ⟨h1, h2⟩ := domainMatchScore_bounds pc rc
  obtain ⟨h3, h4⟩ := domainMatchScore_bounds pn rn
  constructor
  · exact mul_nonneg h1 h3
  · nlinarith

lemma list_sum_le_length (l : List ℚ) (h : ∀ x ∈ l, x ≤ 1) :
    l.sum ≤ l.length := by
  induction l with
  | nil => simp
  | cons x l ih =>
    rw [List.sum_cons, List.length_cons]
    have hx := h x (by simp)
    have ih' := ih fun y hy => h y (by simp [hy])
    push_cast
    linarith

lemma list_sum_nonneg (l : List ℚ) (h : ∀ x ∈ l, 0 ≤ x) : 0 ≤ l.sum := by
  induction l with
  | nil => simp
  | cons x l ih =>
    rw [List.sum_cons]
    have hx := h x (by simp)
    have ih' := ih fun y hy => h y (by simp [hy])
    linarith

lemma markov_bounds (pat : PatientData) (ref : RefData) :
    0 ≤ markovProbability pat ref ∧ markovProbability pat ref ≤ 1 := by
  unfold markovProbability
  have hden : ((domainSequence.length - 1 : ℕ) : ℚ) = 4 := by
    simp [domainSequence]
  rw [hden]
  have hmem : ∀ x ∈ (domainSequence.zip domainSequence.tail).map fun q =>
      transitionTerm pat ref q.1 q.2, 0 ≤ x ∧ x ≤ 1 := by
    intro x hx
    rcases List.mem_map.mp hx with ⟨q, -, rfl⟩
    exact transitionTerm_bounds pat ref q.1 q.2
  have h0 := list_sum_nonneg _ fun x hx => (hmem x hx).1
  have h1 := list_sum_le_length _ fun x hx => (hmem x hx).2
  have hlen : (((domainSequence.zip domainSequence.tail).map fun q =>
      transitionTerm pat ref q.1 q.2).length : ℚ) = 4 := by
    simp [domainSequence]
  rw [hlen] at h1
  constructor
  · positivity
  · rw [div_le_one (by norm_num : (0:ℚ) < 4)]
    linarith

lemma forall_mem_zipWith {α β γ : Type _} {f : α → β → γ} {P : γ → Prop}
    (h : ∀ a b, P (f a b)) :
    ∀ (l1 : List α) (l2 : List β), ∀ x ∈ List.zipWith f l1 l2, P x := by
  intro l1
  induction l1 with
  | nil =>
    intro l2 x hx
    simp at hx
  | cons a l ih =>
    intro l2 x hx
    cases l2 with
    | nil => simp at hx
    | cons b l2 =>
      rw [List.zipWith_cons_cons] at hx
      rcases List.mem_cons.mp hx with rfl | hx'
      · exact h a b
      · exact ih l2 x hx'

lemma real_list_sum_le_length (l : List ℝ) (h : ∀ x ∈ l, x ≤ 1) :
    l.sum ≤ l.length := by
  induction l with
  | nil => simp
  | cons x l ih =>
    rw [List.sum_cons, List.length_cons]
    have hx := h x (by simp)
    have ih' := ih fun y hy => h y (by simp [hy])
    push_cast
    linarith

lemma real_neg_length_le_sum (l : List ℝ) (h : ∀ x ∈ l, -1 ≤ x) :
    -(l.length : ℝ) ≤ l.sum := by
  induction l with
  | nil => simp
  | cons x l ih =>
    rw [List.sum_cons, List.length_cons]
    have hx := h x (by simp)
    have ih' := ih fun y hy => h y (by simp [hy])
    push_cast
    linarith

lemma real_mean_bounds (l : List ℝ) (h : ∀ x ∈ l, -1 ≤ x ∧ x ≤ 1) :
    -1 ≤ l.sum / l.length ∧ l.sum / l.length ≤ 1 := by
  rcases eq_or_ne l [] with rfl | hne
  · norm_num
  · have hlen : 0 < (l.length : ℝ) := by
      have := List.length_pos.mpr hne
      exact_mod_cast this
    have hub := real_list_sum_le_length l fun x hx => (h x hx).2
    have hlb := real_neg_length_le_sum l fun x hx => (h x hx).1
    constructor
    · rw [le_div_iff₀ hlen]
      linarith
    · rw [div_le_one hlen]
      exact hub

lemma domainPhaseDiff_bounds (pv : List PVar) (rv : List RVar) :
    -1 ≤ domainPhaseDiff pv rv ∧ domainPhaseDiff pv rv ≤ 1 := by
  unfold domainPhaseDiff
  apply real_mean_bounds
  exact forall_mem_zipWith
    (fun p r => ⟨Real.neg_one_le_cos _, Real.cos_le_one _⟩) pv rv

lemma kuramoto_bounds (pat : PatientData) (ref : RefData) :
    -1 ≤ kuramotoSynchronization pat ref ∧
      kuramotoSynchronization pat ref ≤ 1 := by
  unfold kuramotoSynchronization
  split_ifs with hnil
  · norm_num
  · apply real_mean_bounds
    intro x hx
    unfold phaseDiffList at hx
    rcases List.mem_filterMap.mp hx with ⟨d, -, hsome⟩
    rcases hpd : pat d with _ | pv <;> rcases hrd : ref d with _ | rv <;>
      rw [hpd, hrd] at hsome
    · exact absurd hsome (by simp)
    · exact absurd hsome (by simp)
    · exact absurd hsome (by simp)
    · have hsome' : (if pv ≠ [] ∧ rv ≠ [] then
          some (domainPhaseDiff pv rv) else none) = some x := hsome
      by_cases hne : pv ≠ [] ∧ rv ≠ []
      · rw [if_pos hne] at hsome'
        obtain rfl := Option.some.inj hsome'
        exact domainPhaseDiff_bounds pv rv
      · rw [if_neg hne] at hsome'
        cases hsome'

/-- C4 (amended).  For inputs whose angles lie in `[0, 360]` degrees,
whose magnitudes lie in `[0, 1]` and whose reference weights are
nonnegative: the Bayesian and Markov scores always lie in `[0, 1]`, but
the Kuramoto score and therefore the combined score are only bounded
within `[-1, 1]` (the counterexample shows `-1` and a negative combined
score are attained). -/
theorem score_bounds_amended (pat : PatientData) (rp : RefProfile)
    (hp : ∀ d pv, pat d = some pv → ∀ p ∈ pv,
      0 ≤ p.angle ∧ p.angle ≤ 360 ∧ 0 ≤ p.magnitude ∧ p.magnitude ≤ 1)
    (hr : ∀ d rv, rp.data d = some rv → ∀ r ∈ rv,
      0 ≤ r.angle ∧ r.angle ≤ 360 ∧ 0 ≤ refMag r ∧ refMag r ≤ 1 ∧
        0 ≤ refWeight r) :
    (0 ≤ (scoreOf pat rp).bayesian ∧ (scoreOf pat rp).bayesian ≤ 1) ∧
      (0 ≤ (scoreOf pat rp).markov ∧ (scoreOf pat rp).markov ≤ 1) ∧
      (-1 ≤ (scoreOf pat rp).kuramoto ∧ (scoreOf pat rp).kuramoto ≤ 1) ∧
      (-1 ≤ (scoreOf pat rp).combined ∧ (scoreOf pat rp).combined ≤ 1) := by
  obtain ⟨hb0, hb1⟩ := bayesian_bounds pat rp.data hp hr
  obtain ⟨hm0, hm1⟩ := markov_bounds pat rp.data
  obtain ⟨hk0, hk1⟩ := kuramoto_bounds pat rp.data
  refine ⟨⟨hb0, hb1⟩, ⟨hm0, hm1⟩, ⟨hk0, hk1⟩, ?_, ?_⟩ <;>
    simp only [scoreOf] <;>
    [skip; skip]
  · have hbR : (0:ℝ) ≤ (bayesianProbability pat rp.data : ℝ) := by
      exact_mod_cast hb0
    have hmR : (0:ℝ) ≤ (markovProbability pat rp.data : ℝ) := by
      exact_mod_cast hm0
    norm_num
    nlinarith [hk0]
  · have hbR : ((bayesianProbability pat rp.data : ℝ)) ≤ 1 := by
      exact_mod_cast hb1
    have hmR : ((markovProbability pat rp.data : ℝ)) ≤ 1 := by
      exact_mod_cast hm1
    norm_num
    nlinarith [hk1]

/-- Witness for the amended C4 theorem at a concrete input. -/
theorem score_bounds_amended_witness :
    (∀ d pv, patOne d = some pv → ∀ p ∈ pv,
      0 ≤ p.angle ∧ p.angle ≤ 360 ∧ 0 ≤ p.magnitude ∧ p.magnitude ≤ 1) ∧
      (∀ d rv, (RefProfile.mk "I21.9" refOne).data d = some rv → ∀ r ∈ rv,
        0 ≤ r.angle ∧ r.angle ≤ 360 ∧ 0 ≤ refMag r ∧ refMag r ≤ 1 ∧
          0 ≤ refWeight r) ∧
      ((0 ≤ (scoreOf patOne ⟨"I21.9", refOne⟩).bayesian ∧
          (scoreOf patOne ⟨"I21.9", refOne⟩).bayesian ≤ 1) ∧
        (0 ≤ (scoreOf patOne ⟨"I21.9", refOne⟩).markov ∧
          (scoreOf patOne ⟨"I21.9", refOne⟩).markov ≤ 1) ∧
        (-1 ≤ (scoreOf patOne ⟨"I21.9", refOne⟩).kuramoto ∧
          (scoreOf patOne ⟨"I21.9", refOne⟩).kuramoto ≤ 1) ∧
        (-1 ≤ (scoreOf patOne ⟨"I21.9", refOne⟩).combined ∧
          (scoreOf patOne ⟨"I21.9", refOne⟩).combined ≤ 1)) := by
  have h1 : ∀ d pv, patOne d = some pv → ∀ p ∈ pv,
      0 ≤ p.angle ∧ p.angle ≤ 360 ∧ 0 ≤ p.magnitude ∧ p.magnitude ≤ 1 := by
    intro d pv hd p hp
    cases d <;> simp [patOne] at hd <;> subst hd <;> simp at hp <;> subst hp <;>
      norm_num [pvA]
  have h2 : ∀ d rv, (RefProfile.mk "I21.9" refOne).data d = some rv → ∀ r ∈ rv,
      0 ≤ r.angle ∧ r.angle ≤ 360 ∧ 0 ≤ refMag r ∧ refMag r ≤ 1 ∧
        0 ≤ refWeight r := by
    intro d rv hd r hrm
    cases d <;> simp [refOne] at hd <;> subst hd <;> simp at hrm <;> subst hrm <;>
      norm_num [rvA, refMag, refWeight]
  exact ⟨h1, h2, score_bounds_amended patOne ⟨"I21.9", refOne⟩ h1 h2⟩

/-- A patient encounter with no domains at all. -/
def emptyPat : PatientData := fun _ => none

/-- A reference profile with no `complex_plane_data` domains. -/
def emptyRef : RefData := fun _ => none

def profB : RefProfile := ⟨"B2", emptyRef⟩

def profA : RefProfile := ⟨"A1", emptyRef⟩

lemma bayesian_emptyPat (ref : RefData) :
    bayesianProbability emptyPat ref = 0 := by
  simp [bayesianProbability, bayesAcc, Domain.all, emptyPat]

lemma kuramoto_emptyPat (ref : RefData) :
    kuramotoSynchronization emptyPat ref = 0 := by
  simp [kuramotoSynchronization, phaseDiffList, Domain.all, emptyPat]

lemma markov_emptyPat (ref : RefData) :
    markovProbability emptyPat ref = 0 := by
  simp [markovProbability, domainSequence, List.zip, List.zipWith,
    transitionTerm, emptyPat]

lemma scoreOf_emptyPat (rp : RefProfile) :
    scoreOf emptyPat rp = ⟨rp.icd, 0, 0, 0, 0⟩ := by
  unfold scoreOf
  rw [bayesian_emptyPat, kuramoto_emptyPat, markov_emptyPat]
  norm_num

/-- The ordering the claim asserts for the output list: combined
descending, ties by bayesian descending, remaining ties by disease
identifier ascending. -/
def claimOrdered (l : List ScoreEntry) : Prop :=
  l.Pairwise fun a b => b.combined < a.combined ∨
    (a.combined = b.combined ∧ (b.bayesian < a.bayesian ∨
      (a.bayesian = b.bayesian ∧ a.icd ≤ b.icd)))

/-- C5 (counterexample).  Two reference profiles with identical (empty)
data, inserted with identifiers in the order `B2`, `A1`: all scores tie at
`0`, the code's stable sort keeps the insertion order `[B2, A1]`, so the
output violates the claimed identifier-ascending tie-break. -/
theorem ranking_claim_counterexample :
    analyzePatientEncounter emptyPat [profB, profA] =
      [scoreOf emptyPat profB, scoreOf emptyPat profA] ∧
      ¬ claimOrdered (analyzePatientEncounter emptyPat [profB, profA]) := by
  have hB := scoreOf_emptyPat profB
  have hA := scoreOf_emptyPat profA
  have hr : rankLE (scoreOf emptyPat profB) (scoreOf emptyPat profA) := by
    unfold rankLE
    rw [hA, hB]
  have heq : analyzePatientEncounter emptyPat [profB, profA] =
      [scoreOf emptyPat profB, scoreOf emptyPat profA] := by
    unfold analyzePatientEncounter
    simp only [List.map_cons, List.map_nil]
    have hsort : List.insertionSort rankLE
        [scoreOf emptyPat profB, scoreOf emptyPat profA] =
        [scoreOf emptyPat profB, scoreOf emptyPat profA] := by
      simp only [List.insertionSort, List.orderedInsert]
      rw [if_pos hr]
    rw [hsort]
    rfl
  refine ⟨heq, ?_⟩
  rw [heq, hB, hA]
  intro hord
  unfold claimOrdered at hord
  rw [List.pairwise_cons] at hord
  have hpair := hord.1 ⟨profA.icd, 0, 0, 0, 0⟩ (by simp)
  simp only [profA, profB] at hpair
  rcases hpair with h1 | ⟨-, h2 | ⟨-, h3⟩⟩
  · exact lt_irrefl _ h1
  · exact lt_irrefl _ h2
  · have : ¬ (("B2" : String) ≤ "A1") := by
      simp
      decide
    exact this h3

lemma analyze_length_eq (pat : PatientData) (lib : List RefProfile) :
    (analyzePatientEncounter pat lib).length = min 10 lib.length := by
  unfold analyzePatientEncounter
  rw [List.length_take, (List.perm_insertionSort rankLE _).length_eq,
    List.length_map]

/-- C5 (amended).  The ranked output is sorted by combined score
descending — ties keep the reference library's insertion order (Python's
sort is stable), with no bayesian or identifier tie-break — and its length
is exactly `min 10 (number of candidates)`. -/
theorem ranking_sorted_and_truncated (pat : PatientData) (lib : List RefProfile) :
    ((analyzePatientEncounter pat lib).Pairwise fun a b =>
      b.combined ≤ a.combined) ∧
      (analyzePatientEncounter pat lib).length = min 10 lib.length := by
  constructor
  · exact List.Pairwise.sublist (List.take_sublist _ _)
      (List.sorted_insertionSort rankLE (lib.map fun rp => scoreOf pat rp))
  · exact analyze_length_eq pat lib

/-- C8.  Scoring a patient with no domains never fails: against any
candidate list the ranked output still has length `min 10 (number of
candidates)` and every returned entry has combined score `0`; and an empty
candidate list yields the empty ranked list. -/
theorem empty_patient_empty_library (lib : List RefProfile) (pat : PatientData) :
    (analyzePatientEncounter emptyPat lib).length = min 10 lib.length ∧
      (∀ e ∈ analyzePatientEncounter emptyPat lib, e.combined = 0) ∧
      analyzePatientEncounter pat [] = [] := by
  refine ⟨analyze_length_eq emptyPat lib, ?_, ?_⟩
  · intro e he
    have he' : e ∈ List.insertionSort rankLE
        (lib.map fun rp => scoreOf emptyPat rp) :=
      List.mem_of_mem_take he
    have he'' : e ∈ lib.map fun rp => scoreOf emptyPat rp :=
      (List.perm_insertionSort rankLE _).mem_iff.mp he'
    rcases List.mem_map.mp he'' with ⟨rp, -, rfl⟩
    rw [scoreOf_emptyPat]
  · unfold analyzePatientEncounter
    rfl

/-- Witness for C8's inner quantifier at a concrete input: the
single-profile library output contains the zero-combined entry. -/
theorem empty_patient_empty_library_witness :
    scoreOf emptyPat profB ∈ analyzePatientEncounter emptyPat [profB] ∧
      (scoreOf emptyPat profB).combined = 0 := by
  have hmem : scoreOf emptyPat profB ∈ analyzePatientEncounter emptyPat [profB] := by
    unfold analyzePatientEncounter
    simp [List.insertionSort, List.orderedInsert]
  exact ⟨hmem, (empty_patient_empty_library [profB] emptyPat).2.1 _ hmem⟩

/-- The allocator's `allocated_angles` dictionary of the `AngleAllocator`
in `cloud-functions.py`, in insertion order.  The Python key is the string
`f"{domain}:{variable}"`; since the six domain names contain no colon this
is equivalent to the pair `(domain, variable)` used here, and the
`startswith(f"{domain}:")` count is the count of entries whose first
component is the domain. -/
abbrev AllocState : Type := List ((String × String) × ℕ)

/-- Embeds `AngleAllocator.allocate_angle`: return the recorded angle for a known
key; otherwise allocate `domain_offset + current_count * 30` degrees
reduced modulo 360 (every entry of the code's `domain_offset` table is
`0`), record it and return it. -/
def allocateAngle (st : AllocState) (domain varName : String) : ℕ × AllocState :=
  match List.lookup (domain, varName) st with
  | some a => (a, st)
  | none =>
      let count := st.countP fun kv => kv.1.1 == domain
      let angle := count * 30 % 360
      (angle, st ++ [((domain, varName), angle)])

/-- Run a sequence of allocations left to right. -/
def runAlloc (st : AllocState) : List (String × String) → AllocState
  | [] => st
  | k :: ks => runAlloc (allocateAngle st k.1 k.2).2 ks

/-- C6 (counterexample).  Every domain offset is `0`, so the first key of
`subjective` and the first key of `vitals` — two different keys in two
different domains — both receive angle `0`, with no failure of any kind;
and the thirteenth distinct key of a single domain wraps modulo 360 back
to angle `0`, silently aliasing the first key of that domain. -/
theorem allocator_claim_counterexample :
    (allocateAngle [] "subjective" "a").1 = 0 ∧
      (allocateAngle (allocateAngle [] "subjective" "a").2 "vitals" "b").1 = 0 ∧
      ("subjective", "a") ≠ (("vitals", "b") : String × String) ∧
      (allocateAngle (runAlloc []
        (["a", "b", "c", "d", "e", "f", "g", "h", "i", "j", "k", "l"].map
          fun v => ("vitals", v))) "vitals" "m").1 =
        (allocateAngle [] "vitals" "a").1 := by
  decide

lemma lookup_append_self {st : AllocState} {k : String × String} {a : ℕ}
    (h : List.lookup k st = none) :
    List.lookup k (st ++ [(k, a)]) = some a := by
  rw [List.lookup_append, h]
  simp

/-- The allocator state built by allocating the fresh variables `vs` of
one domain in order, starting from the counter value `c`. -/
def expEntries (d : String) : ℕ → List String → AllocState
  | _, [] => []
  | c, v :: vs => ((d, v), c * 30 % 360) :: expEntries d (c + 1) vs

lemma runAlloc_fresh (d : String) (vs : List String) (st : AllocState)
    (hfresh : ∀ v ∈ vs, List.lookup (d, v) st = none) (hnd : vs.Nodup) :
    runAlloc st (vs.map fun v => (d, v)) =
      st ++ expEntries d (st.countP fun kv => kv.1.1 == d) vs := by
  induction vs generalizing st with
  | nil => simp [runAlloc, expEntries]
  | cons v vs ih =>
    rw [List.map_cons]
    have hv : List.lookup (d, v) st = none := hfresh v (by simp)
    have hstep : (allocateAngle st d v).2 =
        st ++ [((d, v), (st.countP fun kv => kv.1.1 == d) * 30 % 360)] := by
      unfold allocateAngle
      rw [hv]
    have hnd' := (List.nodup_cons.mp hnd).2
    have hvnotin := (List.nodup_cons.mp hnd).1
    have hfresh' : ∀ w ∈ vs,
        List.lookup (d, w) (allocateAngle st d v).2 = none := by
      intro w hw
      rw [hstep, List.lookup_append, hfresh w (by simp [hw])]
      have hwv : w ≠ v := fun hEq => hvnotin (hEq ▸ hw)
      have hb : ((d, w) == (d, v)) = false :=
        beq_eq_false_iff_ne.mpr (by simp [hwv])
      simp [List.lookup, hb]
    have hcount : ((allocateAngle st d v).2.countP fun kv => kv.1.1 == d) =
        (st.countP fun kv => kv.1.1 == d) + 1 := by
      rw [hstep, List.countP_append]
      simp [List.countP_cons]
    show runAlloc (allocateAngle st d v).2 (vs.map fun v => (d, v)) = _
    rw [ih (allocateAngle st d v).2 hfresh' hnd', hcount, hstep]
    rw [List.append_assoc]
    rfl

lemma expEntries_angles (d : String) (c : ℕ) (vs : List String) :
    (expEntries d c vs).map (fun kv => kv.2) =
      (List.range vs.length).map fun i => (c + i) * 30 % 360 := by
  induction vs generalizing c with
  | nil => simp [expEntries]
  | cons v vs ih =>
    rw [expEntries, List.map_cons, ih (c + 1), List.length_cons,
      List.range_succ_eq_map, List.map_cons, List.map_map]
    congr 1
    apply List.map_congr_left
    intro a ha
    show (c + 1 + a) * 30 % 360 = (c + Nat.succ a) * 30 % 360
    congr 1
    omega

lemma expEntries_angles_nodup (d : String) (vs : List String)
    (hlen : vs.length ≤ 12) :
    ((expEntries d 0 vs).map fun kv => kv.2).Nodup := by
  rw [expEntries_angles]
  apply List.Nodup.map_on _ (List.nodup_range _)
  intro i hi j hj hEq
  rw [List.mem_range] at hi hj
  rw [Nat.mod_eq_of_lt (by omega), Nat.mod_eq_of_lt (by omega)] at hEq
  omega

/-- C6 (amended).  The allocator is stable — allocating the same
`(domain, variable)` key twice returns the same angle and leaves the table
unchanged — and within a single domain up to 12 distinct fresh keys
receive pairwise distinct angles; but the per-domain offsets are all `0`,
so different domains share one sector and alias freely (counterexample),
and from the 13th key onward the angle wraps modulo 360 and silently
aliases instead of failing with `AllocationExhausted` (no failure path
exists in the code). -/
theorem allocator_stable_and_bounded_distinct :
    (∀ (st : AllocState) (d v : String),
      allocateAngle (allocateAngle st d v).2 d v = allocateAngle st d v) ∧
      (∀ (d : String) (vs : List String), vs.Nodup → vs.length ≤ 12 →
        ((runAlloc [] (vs.map fun v => (d, v))).map fun kv => kv.2).Nodup) := by
  constructor
  · intro st d v
    unfold allocateAngle
    rcases hl : List.lookup (d, v) st with _ | a
    · have h2 : List.lookup (d, v)
          (st ++ [((d, v), (st.countP fun kv => kv.1.1 == d) * 30 % 360)]) =
          some ((st.countP fun kv => kv.1.1 == d) * 30 % 360) :=
        lookup_append_self hl
      simp only [h2]
    · simp only [hl]
  · intro d vs hnd hlen
    rw [runAlloc_fresh d vs [] (by simp) hnd]
    simpa using expEntries_angles_nodup d vs hlen

/-- Witness for the amended C6 theorem: two distinct variables of one
domain receive distinct angles. -/
theorem allocator_stable_and_bounded_distinct_witness :
    (["hr", "bp"] : List String).Nodup ∧ (["hr", "bp"] : List String).length ≤ 12 ∧
      ((runAlloc [] ((["hr", "bp"] : List String).map fun v =>
        ("vitals", v))).map fun kv => kv.2).Nodup := by
  refine ⟨by decide, by decide, ?_⟩
  exact allocator_stable_and_bounded_distinct.2 "vitals" ["hr", "bp"]
    (by decide) (by decide)

/-- A raw observation value: Python's `isinstance(value, (int, float))`
check splits values into numbers and truthy/falsy text. -/
inductive ObsValue where
  | num (q : ℚ)
  | text (b : Bool)
  deriving DecidableEq, Repr

/-- The table `ComplexPlaneMapper.angle_mapping`: `_initialize_angle_mappings`
populates only the `vitals` domain; `angle_mapping.get(domain, {})` is
empty for every other domain. -/
def angleMapping (domain : String) : List (String × ℚ) :=
  if domain = "vitals" then
    [("temperature", 0), ("heart_rate", 60), ("bp_systolic", 120),
     ("bp_diastolic", 180), ("oxygen_saturation", 240),
     ("respiratory_rate", 300)]
  else []

/-- The `normalization_ranges` table of
`ComplexPlaneMapper._normalize_value`. -/
def normalizationRanges (domain : String) : List (String × (ℚ × ℚ)) :=
  if domain = "vitals" then
    [("temperature", (35, 42)), ("heart_rate", (40, 200)),
     ("bp_systolic", (70, 200)), ("bp_diastolic", (40, 130)),
     ("oxygen_saturation", (70, 100)), ("respiratory_rate", (8, 40))]
  else []

/-- Embeds `ComplexPlaneMapper._normalize_value`: `(value - min) / (max - min)`
clamped to `[0, 1]` when a range is configured, else the default `0.5`. -/
def normalizeValue (domain varName : String) (value : ℚ) : ℚ :=
  match List.lookup varName (normalizationRanges domain) with
  | some (mn, mx) => max 0 (min 1 ((value - mn) / (mx - mn)))
  | none => 1/2

/-- One record of the list built by `map_to_complex_plane` (the
`timestamp` field is external I/O and omitted). -/
structure MappedVar where
  name : String
  angle : ℚ
  magnitude : ℚ
  value : ObsValue
  deriving DecidableEq, Repr

/-- Embeds `ComplexPlaneMapper.map_to_complex_plane`: a variable is emitted only
`if var_name in self.angle_mapping.get(domain, {})`; numeric values get
the normalized magnitude, other values `1.0 if value else 0.0`. -/
def mapToComplexPlane (domain : String) (vars : List (String × ObsValue)) :
    List MappedVar :=
  vars.filterMap fun x =>
    match List.lookup x.1 (angleMapping domain) with
    | some angle =>
        some { name := x.1
               angle := angle
               magnitude :=
                 match x.2 with
                 | .num q => normalizeValue domain x.1 q
                 | .text b => if b then 1 else 0
               value := x.2 }
    | none => none

lemma angle_implies_range (domain name : String) (a : ℚ)
    (h : List.lookup name (angleMapping domain) = some a) :
    ∃ mn mx, List.lookup name (normalizationRanges domain) = some (mn, mx) := by
  have hmem : name ∈ (angleMapping domain).map Prod.fst := by
    by_contra hnot
    have hn : List.lookup name (angleMapping domain) = none :=
      List.lookup_eq_none_iff.mpr fun p hp => by
        simp only [bne_iff_ne]
        intro hEq
        exact hnot (by rw [hEq]; exact List.mem_map_of_mem Prod.fst hp)
    rw [hn] at h
    cases h
  unfold angleMapping at hmem
  unfold normalizationRanges
  by_cases hd : domain = "vitals"
  · rw [if_pos hd] at hmem
    rw [if_pos hd]
    simp only [List.map_cons, List.map_nil, List.mem_cons,
      List.not_mem_nil, or_false] at hmem
    rcases hmem with rfl | rfl | rfl | rfl | rfl | rfl
    · exact ⟨35, 42, rfl⟩
    · exact ⟨40, 200, rfl⟩
    · exact ⟨70, 200, rfl⟩
    · exact ⟨40, 130, rfl⟩
    · exact ⟨70, 100, rfl⟩
    · exact ⟨8, 40, rfl⟩
  · rw [if_neg hd] at hmem
    simp at hmem

lemma mem_mapToComplexPlane {domain : String} {vars : List (String × ObsValue)}
    {e : MappedVar} (he : e ∈ mapToComplexPlane domain vars) :
    ∃ x ∈ vars, ∃ a, List.lookup x.1 (angleMapping domain) = some a ∧
      e.name = x.1 ∧ e.angle = a ∧ e.value = x.2 ∧
      e.magnitude = (match x.2 with
        | .num q => normalizeValue domain x.1 q
        | .text b => if b then 1 else 0) := by
  unfold mapToComplexPlane at he
  rcases List.mem_filterMap.mp he with ⟨x, hx, hsome⟩
  rcases hl : List.lookup x.1 (angleMapping domain) with _ | a
  · rw [hl] at hsome
    cases hsome
  · rw [hl] at hsome
    obtain rfl := Option.some.inj hsome
    exact ⟨x, hx, a, hl, rfl, rfl, rfl, rfl⟩

/-- C7.  Every mapped numeric observation carries magnitude
`clamp((value - min) / (max - min), 0, 1)` for its configured per-variable
range (in this mapper every emitted variable has a configured range), and
a numeric observation of a variable with no configured range produces no
mapped record at all. -/
theorem numeric_magnitude_normalized (domain : String)
    (vars : List (String × ObsValue)) :
    (∀ e ∈ mapToComplexPlane domain vars, ∀ q : ℚ, e.value = .num q →
      ∃ mn mx, List.lookup e.name (normalizationRanges domain) = some (mn, mx) ∧
        e.magnitude = max 0 (min 1 ((q - mn) / (mx - mn)))) ∧
      (∀ name, List.lookup name (normalizationRanges domain) = none →
        ∀ e ∈ mapToComplexPlane domain vars, e.name ≠ name) := by
  constructor
  · intro e he q hq
    obtain ⟨x, -, a, hl, hname, -, hval, hmag⟩ := mem_mapToComplexPlane he
    obtain ⟨mn, mx, hrange⟩ := angle_implies_range domain x.1 a hl
    refine ⟨mn, mx, by rw [hname]; exact hrange, ?_⟩
    rw [hmag, ← hval, hq]
    unfold normalizeValue
    rw [hrange]
  · intro name hnone e he hname
    obtain ⟨x, -, a, hl, hnx, -, -, -⟩ := mem_mapToComplexPlane he
    obtain ⟨mn, mx, hrange⟩ := angle_implies_range domain x.1 a hl
    rw [← hnx, hname, hnone] at hrange
    cases hrange

/-- Witness for C7: heart rate 110 with range (40, 200) maps to magnitude
`(110 - 40) / 160 = 7/16`. -/
theorem numeric_magnitude_normalized_witness :
    (MappedVar.mk "heart_rate" 60 (7/16) (.num 110) ∈
      mapToComplexPlane "vitals" [("heart_rate", ObsValue.num 110)]) ∧
      (MappedVar.mk "heart_rate" 60 (7/16) (.num 110)).value = .num 110 ∧
      (∃ mn mx, List.lookup "heart_rate" (normalizationRanges "vitals") =
          some (mn, mx) ∧
        (MappedVar.mk "heart_rate" 60 (7/16) (.num 110)).magnitude =
          max 0 (min 1 ((110 - mn) / (mx - mn)))) := by
  have hmem : MappedVar.mk "heart_rate" 60 (7/16) (.num 110) ∈
      mapToComplexPlane "vitals" [("heart_rate", ObsValue.num 110)] := by
    unfold mapToComplexPlane
    simp [List.filterMap_cons, angleMapping, List.lookup, normalizeValue,
      normalizationRanges]
    norm_num
  exact ⟨hmem, rfl,
    (numeric_magnitude_normalized "vitals" _).1 _ hmem 110 rfl⟩

/-- C9 (counterexample).  An observation whose variable name is not in the
mapper's angle table is not given a newly minted angle: it is silently
dropped, and the mapped output is empty (this mapper never calls any
allocator — the `AngleAllocator` lives in an unrelated module). -/
theorem unknown_name_counterexample :
    mapToComplexPlane "vitals" [("unknown_finding", ObsValue.num 1)] = [] := by
  rfl

/-- C9 (amended).  For every input observation whose variable name is not
in the mapper's angle table for its domain, the mapped output contains no
record with that name: the observation is silently dropped rather than
being given a freshly allocated angle. -/
theorem unknown_names_dropped (domain : String)
    (vars : List (String × ObsValue)) (name : String)
    (h : List.lookup name (angleMapping domain) = none) :
    ∀ e ∈ mapToComplexPlane domain vars, e.name ≠ name := by
  intro e he hname
  obtain ⟨x, -, a, hl, hnx, -, -, -⟩ := mem_mapToComplexPlane he
  rw [← hnx, hname, h] at hl
  cases hl

/-- Witness for the amended C9 theorem at a concrete input. -/
theorem unknown_names_dropped_witness :
    List.lookup "unknown_finding" (angleMapping "vitals") = none ∧
      ∀ e ∈ mapToComplexPlane "vitals"
        [("heart_rate", ObsValue.num 110), ("unknown_finding", ObsValue.num 1)],
        e.name ≠ "unknown_finding" := by
  have h : List.lookup "unknown_finding" (angleMapping "vitals") = none := by
    rfl
  exact ⟨h, unknown_names_dropped "vitals" _ "unknown_finding" h⟩

def refC10 : RefData := fun d =>
  match d with
  | .vitals => some [rvA2, rvB2]
  | _ => none

/-- C10 (counterexample).  Permuting the two vitals variables of the
reference profile (a legal reordering of `DomainData`) changes the
Kuramoto score from `1` to `0`, because the code pairs variables by
position instead of by name; the combined score changes with it. -/
theorem permutation_invariance_counterexample :
    List.Perm [rvA2, rvB2] [rvB2, rvA2] ∧
      kuramotoSynchronization patC2 refC10 = 1 ∧
      kuramotoSynchronization patC2 refC2 = 0 := by
  refine ⟨List.Perm.swap rvB2 rvA2 [], ?_, ?_⟩
  · have hdp : domainPhaseDiff [pvA2, pvB2] [rvA2, rvB2] = 1 := by
      unfold domainPhaseDiff
      simp only [List.zipWith_cons_cons, List.zipWith_nil_right, List.zipWith,
        pvA2, pvB2, rvA2, rvB2]
      rw [sub_self, sub_self, Real.cos_zero]
      norm_num
    unfold kuramotoSynchronization
    have hlist : phaseDiffList patC2 refC10 =
        [domainPhaseDiff [pvA2, pvB2] [rvA2, rvB2]] := by
      simp [phaseDiffList, Domain.all, patC2, refC10]
    rw [hlist, hdp]
    norm_num
  · have hdp : domainPhaseDiff [pvA2, pvB2] [rvB2, rvA2] = 0 := by
      unfold domainPhaseDiff
      simp only [List.zipWith_cons_cons, List.zipWith_nil_right, List.zipWith,
        pvA2, pvB2, rvA2, rvB2]
      rw [deg2rad_zero, deg2rad_ninety]
      rw [zero_sub, Real.cos_neg, sub_zero, Real.cos_pi_div_two]
      norm_num
    unfold kuramotoSynchronization
    have hlist : phaseDiffList patC2 refC2 =
        [domainPhaseDiff [pvA2, pvB2] [rvB2, rvA2]] := by
      simp [phaseDiffList, Domain.all, patC2, refC2]
    rw [hlist, hdp]
    norm_num

/-- Domain-wise permutation of two domain dictionaries: the same keys are
present, and each present domain's variable list is a permutation. -/
def OptPerm {α : Type _} : Option (List α) → Option (List α) → Prop
  | none, none => True
  | some l, some l' => l.Perm l'
  | _, _ => False

lemma flatMap_perm_congr {α β : Type _} (l : List α) (f g : α → List β)
    (h : ∀ a ∈ l, (f a).Perm (g a)) : (l.flatMap f).Perm (l.flatMap g) := by
  induction l with
  | nil => exact List.Perm.refl _
  | cons a l ih =>
    rw [List.flatMap_cons, List.flatMap_cons]
    exact (h a (by simp)).append (ih fun b hb => h b (by simp [hb]))

lemma domainMatchedPairs_perm {pv pv' : List PVar} {rv rv' : List RVar}
    (hp : pv.Perm pv') (hr : rv.Perm rv') :
    (domainMatchedPairs pv rv).Perm (domainMatchedPairs pv' rv') := by
  unfold domainMatchedPairs
  refine (List.Perm.flatMap_right _ hp).trans ?_
  exact flatMap_perm_congr _ _ _ fun p _ => hr.filterMap _

lemma matchedPairs_perm {pat pat' : PatientData} {ref ref' : RefData}
    (hp : ∀ d, OptPerm (pat d) (pat' d)) (hr : ∀ d, OptPerm (ref d) (ref' d)) :
    (matchedPairs pat ref).Perm (matchedPairs pat' ref') := by
  unfold matchedPairs
  apply flatMap_perm_congr
  intro d _
  have hpd := hp d
  have hrd := hr d
  rcases h1 : pat d with _ | pv <;> rcases h2 : pat' d with _ | pv' <;>
    rw [h1, h2] at hpd <;>
    rcases h3 : ref d with _ | rv <;> rcases h4 : ref' d with _ | rv' <;>
      rw [h3, h4] at hrd <;>
      simp only [OptPerm] at hpd hrd <;>
      first
        | exact hpd.elim
        | exact hrd.elim
        | exact List.Perm.refl _
        | exact domainMatchedPairs_perm hpd hrd

lemma claimDomainMatchScore_perm {pv pv' : List PVar} {rv rv' : List RVar}
    (hp : pv.Perm pv') (hr : rv.Perm rv') :
    claimDomainMatchScore pv rv = claimDomainMatchScore pv' rv' := by
  unfold claimDomainMatchScore
  rw [((domainMatchedPairs_perm hp hr).map _).sum_eq, hp.length_eq]

lemma markovAmended_perm {pat pat' : PatientData} {ref ref' : RefData}
    (hp : ∀ d, OptPerm (pat d) (pat' d)) (hr : ∀ d, OptPerm (ref d) (ref' d)) :
    markovAmended pat ref = markovAmended pat' ref' := by
  unfold markovAmended
  refine congrArg (fun s : ℚ => s / 4) ?_
  refine congrArg List.sum ?_
  apply List.map_congr_left
  intro q _
  have hp1 := hp q.1
  have hp2 := hp q.2
  have hr1 := hr q.1
  have hr2 := hr q.2
  rcases e1 : pat q.1 with _ | pc <;> rcases e1' : pat' q.1 with _ | pc' <;>
    rw [e1, e1'] at hp1 <;> simp only [OptPerm] at hp1 <;>
    try exact hp1.elim
  all_goals (
    rcases e2 : pat q.2 with _ | pn <;> rcases e2' : pat' q.2 with _ | pn' <;>
      rw [e2, e2'] at hp2 <;> simp only [OptPerm] at hp2 <;>
      try exact hp2.elim)
  all_goals (
    rcases e3 : ref q.1 with _ | rc <;> rcases e3' : ref' q.1 with _ | rc' <;>
      rw [e3, e3'] at hr1 <;> simp only [OptPerm] at hr1 <;>
      try exact hr1.elim)
  all_goals (
    rcases e4 : ref q.2 with _ | rn <;> rcases e4' : ref' q.2 with _ | rn' <;>
      rw [e4, e4'] at hr2 <;> simp only [OptPerm] at hr2 <;>
      try exact hr2.elim)
  all_goals try rfl
  show claimDomainMatchScore pc rc * claimDomainMatchScore pn rn =
    claimDomainMatchScore pc' rc' * claimDomainMatchScore pn' rn'
  rw [claimDomainMatchScore_perm hp1 hr1, claimDomainMatchScore_perm hp2 hr2]

/-- C10 (amended).  Under any permutation of the variables within each
domain's list, on the patient side or the reference side, the Bayesian
measure is unchanged, and the Markov measure is unchanged provided the
reference variable names are unique within each domain; the Kuramoto
measure (and hence the combined score) is not permutation invariant
(counterexample). -/
theorem bayesian_markov_permutation_invariant (pat pat' : PatientData)
    (ref ref' : RefData)
    (hp : ∀ d, OptPerm (pat d) (pat' d)) (hr : ∀ d, OptPerm (ref d) (ref' d)) :
    bayesianProbability pat ref = bayesianProbability pat' ref' ∧
      ((∀ d rv, ref d = some rv → (rv.map RVar.name).Nodup) →
        markovProbability pat ref = markovProbability pat' ref') := by
  constructor
  · unfold bayesianProbability
    rw [bayesAcc_eq, bayesAcc_eq]
    have hperm := matchedPairs_perm hp hr
    have hs : pairsScore (matchedPairs pat ref) =
        pairsScore (matchedPairs pat' ref') := (hperm.map _).sum_eq
    have hw : pairsWeight (matchedPairs pat ref) =
        pairsWeight (matchedPairs pat' ref') := (hperm.map _).sum_eq
    rw [hs, hw]
  · intro hnd
    have hnd' : ∀ d rv', ref' d = some rv' → (rv'.map RVar.name).Nodup := by
      intro d rv' h4
      have hrd := hr d
      rcases h3 : ref d with _ | rv <;> rw [h3, h4] at hrd <;>
        simp only [OptPerm] at hrd
      exact (hrd.map RVar.name).nodup_iff.mp (hnd d rv h3)
    rw [markovProbability_eq_claim_form pat ref hnd,
      markovProbability_eq_claim_form pat' ref' hnd',
      markovAmended_perm hp hr]

/-- Witness for the amended C10 theorem at a concrete input: the same
patient against the ordered and the permuted reference. -/
theorem bayesian_markov_permutation_invariant_witness :
    (∀ d, OptPerm (patC2 d) (patC2 d)) ∧
      (∀ d, OptPerm (refC10 d) (refC2 d)) ∧
      bayesianProbability patC2 refC10 = bayesianProbability patC2 refC2 ∧
      ((∀ d rv, refC10 d = some rv → (rv.map RVar.name).Nodup) →
        markovProbability patC2 refC10 = markovProbability patC2 refC2) := by
  have hp : ∀ d, OptPerm (patC2 d) (patC2 d) := by
    intro d
    cases d <;> simp [patC2, OptPerm] <;> exact List.Perm.refl _
  have hr : ∀ d, OptPerm (refC10 d) (refC2 d) := by
    intro d
    cases d <;> simp [refC10, refC2, OptPerm]
    exact List.Perm.swap rvB2 rvA2 []
  obtain ⟨h1, h2⟩ := bayesian_markov_permutation_invariant patC2 patC2
    refC10 refC2 hp hr
  exact ⟨hp, hr, h1, h2⟩

/-- C1.  The Bayesian measure equals the weighted mean of the per-pair
local similarities over all name-matched pairs in all shared domains
(weights being the reference variables' weights, default `1`), provided the
weights are nonnegative; and with zero matched pairs it equals `0`. -/
theorem bayesian_is_weighted_mean (pat : PatientData) (ref : RefData)
    (hw : ∀ q ∈ matchedPairs pat ref, 0 ≤ refWeight q.2) :
    bayesianProbability pat ref = bayesianWeightedMean pat ref ∧
      (matchedPairs pat ref = [] → bayesianProbability pat ref = 0) := by
  have hacc := bayesAcc_eq pat ref
  constructor
  · unfold bayesianProbability bayesianWeightedMean
    rw [hacc]
    have hWnonneg : 0 ≤ pairsWeight (matchedPairs pat ref) := by
      unfold pairsWeight
      apply List.sum_nonneg
      intro x hx
      rcases List.mem_map.mp hx with ⟨q, hq, rfl⟩
      exact hw q hq
    rcases lt_or_eq_of_le hWnonneg with hpos | hzero
    · simp only [hpos, if_pos]
      rfl
    · simp only [← hzero, lt_irrefl, if_neg, not_lt, le_refl, if_false]
      rw [pairsWeight] at hzero
      rw [← hzero]
      simp [pairsScore, pairsWeight, ← hzero, div_zero]
  · intro hnil
    unfold bayesianProbability
    rw [hacc, hnil]
    simp [pairsScore, pairsWeight]

/-- Witness for C1 at a concrete one-pair input. -/
theorem bayesian_is_weighted_mean_witness :
    (∀ q ∈ matchedPairs patOne refOne, 0 ≤ refWeight q.2) ∧
      (bayesianProbability patOne refOne = bayesianWeightedMean patOne refOne ∧
        (matchedPairs patOne refOne = [] → bayesianProbability patOne refOne = 0)) := by
  have h : ∀ q ∈ matchedPairs patOne refOne, 0 ≤ refWeight q.2 := by
    intro q hq
    simp [matchedPairs, Domain.all, patOne, refOne, domainMatchedPairs,
      pvA, rvA] at hq
    subst hq
    simp [refWeight, rvA]
  exact ⟨h, bayesian_is_weighted_mean patOne refOne h⟩
